import Mathlib

set_option autoImplicit false

/-!
Verification of the `rust-coyoneda` repository.

`src/morphism.rs` implements `Morphism<'a, A, B>`, a suspended chain of closures
stored as `mfns : LinkedList<VecDeque<Box<Fn(*const ()) -> *const ()>>>`; the
erased pointers are produced and consumed with `transmute` around `Box`es.
We embed the erased value handle as the inductive `Val`, an erased step as
`Step := Val → Val`, a `VecDeque` segment as a `List Step` (push_front = cons,
push_back = append at the end, iteration in list order), and the `LinkedList`
of segments as a `List (List Step)`.

The `transmute`-based boxing of a typed value into an erased handle and back is
embedded as the class `Enc`: `enc` models `transmute::<Box<A>, *const ()>(box x)`
and `dec` models `*transmute::<*const (), Box<A>>(ptr)`; the round trip
`dec (enc a) = a` is exactly what the Rust boxing gives.  `dec` applied to a
handle built at a different type is undefined behavior in the source, so the
embedding extends it with arbitrary total fallbacks.

`mfns.front_mut().unwrap()` / `mfns.back_mut().unwrap()` panic on an empty
segment list, so the corresponding operations return `Option` here; the public
constructors keep the segment list non-empty, which is proved below.

`src/lib.rs` implements the `Coyoneda` wrapper over a functor-like container;
it is embedded at the end of the definitions.
-/

/-- Erased value handle, modelling the `*const ()` pointers threaded through a
`Morphism`.  One constructor per concrete Rust type that flows through the
chains appearing in the repository (integers, booleans, strings, `Option`s and
tuples). -/
inductive Val : Type where
  | nat : Nat → Val
  | bool : Bool → Val
  | str : String → Val
  | opt : Option Val → Val
  | pair : Val → Val → Val

/-- Typed boxing into and out of an erased handle, modelling the two
`transmute`/`Box` conversions in `unsafe_push_front` / `unsafe_push_back` /
`run`.  `dec_enc` is the round trip `*transmute(transmute(box a)) = a`. -/
class Enc (A : Type) where
  enc : A → Val
  dec : Val → A
  dec_enc : ∀ a : A, dec (enc a) = a

attribute [simp] Enc.dec_enc

instance : Enc Nat where
  enc n := Val.nat n
  dec v := match v with
    | .nat n => n
    | _ => 0
  dec_enc _ := rfl

instance : Enc Bool where
  enc b := Val.bool b
  dec v := match v with
    | .bool b => b
    | _ => false
  dec_enc _ := rfl

instance : Enc String where
  enc s := Val.str s
  dec v := match v with
    | .str s => s
    | _ => ""
  dec_enc _ := rfl

instance instEncOption {A : Type} [Enc A] : Enc (Option A) where
  enc o := Val.opt (o.map Enc.enc)
  dec v := match v with
    | .opt o => o.map Enc.dec
    | _ => none
  dec_enc o := by
    cases o with
    | none => rfl
    | some a =>
        show some (Enc.dec (Enc.enc a)) = some a
        rw [Enc.dec_enc]

instance instEncProd {A B : Type} [Enc A] [Enc B] : Enc (A × B) where
  enc p := Val.pair (Enc.enc p.1) (Enc.enc p.2)
  dec v := match v with
    | .pair a b => (Enc.dec a, Enc.dec b)
    | _ => (Enc.dec v, Enc.dec v)
  dec_enc p := by
    obtain ⟨a, b⟩ := p
    show (Enc.dec (Enc.enc a), Enc.dec (Enc.enc b)) = (a, b)
    rw [Enc.dec_enc, Enc.dec_enc]

/-- An opaque step: one erased closure `Fn(*const ()) -> *const ()`. -/
abbrev Step : Type := Val → Val

/-- The erased closure `g` built inside `unsafe_push_front` / `unsafe_push_back`:
`|ptr| transmute(box f(*transmute(ptr)))`. -/
def wrap {A B : Type} [Enc A] [Enc B] (f : A → B) : Step :=
  fun ptr => Enc.enc (f (Enc.dec ptr))

/-- Models `mfns.front_mut().unwrap()` followed by `head.push_front(g)`: pushes `g`
onto the front of the first segment; `none` models the `unwrap` panic on an
empty segment list. -/
def pushFrontRaw (g : Step) : List (List Step) → Option (List (List Step))
  | [] => none
  | seg :: rest => some ((g :: seg) :: rest)

/-- Models `mfns.back_mut().unwrap()` followed by `tail.push_back(g)`: pushes `g`
onto the back of the last segment; `none` models the `unwrap` panic on an
empty segment list. -/
def pushBackRaw (g : Step) : List (List Step) → Option (List (List Step))
  | [] => none
  | [seg] => some [seg ++ [g]]
  | seg :: rest => (pushBackRaw g rest).map (fun l => seg :: l)

/-- The inner loop of `Morphism::run`: `for f in fns.iter() { res = f.call((res,)); }`. -/
def runSeg (fns : List Step) (v : Val) : Val :=
  fns.foldl (fun res f => f res) v

/-- The outer loop of `Morphism::run`: `for fns in self.mfns.iter() { ... }`. -/
def runRaw (mfns : List (List Step)) (v : Val) : Val :=
  mfns.foldl (fun res fns => runSeg fns res) v

/-- Embeds `Morphism<'a, A, B>`: the segment list `mfns` plus the phantom typing
`PhantomData<(A, B)>` (the parameters `A`, `B` are not stored). -/
structure Morphism (A B : Type) : Type where
  mfns : List (List Step)

/-- Embeds `Morphism::new`: one empty segment. -/
def Morphism.new (A : Type) : Morphism A A :=
  ⟨[[]]⟩

/-- Embeds `Morphism::head`: `unsafe_push_front` of the wrapped closure, then a
phantom retyping.  `none` models the panic of the internal `unwrap` on an
empty segment list. -/
def Morphism.head {A B C : Type} [Enc A] [Enc B] (m : Morphism B C) (f : A → B) :
    Option (Morphism A C) :=
  (pushFrontRaw (wrap f) m.mfns).map (fun l => ⟨l⟩)

/-- Embeds `Morphism::tail`: `unsafe_push_back` of the wrapped closure, then a
phantom retyping.  `none` models the panic of the internal `unwrap` on an
empty segment list. -/
def Morphism.tail {A B C : Type} [Enc B] [Enc C] (m : Morphism A B) (f : B → C) :
    Option (Morphism A C) :=
  (pushBackRaw (wrap f) m.mfns).map (fun l => ⟨l⟩)

/-- Embeds `Morphism::push_front`: `unsafe_push_front` at the unchanged type `B → B`. -/
def Morphism.push_front {B C : Type} [Enc B] (m : Morphism B C) (f : B → B) :
    Option (Morphism B C) :=
  m.head f

/-- Embeds `Morphism::push_back`: `unsafe_push_back` at the unchanged type `B → B`. -/
def Morphism.push_back {A B : Type} [Enc B] (m : Morphism A B) (f : B → B) :
    Option (Morphism A B) :=
  m.tail f

/-- Embeds `Morphism::then` (named `then'` because `then` is a Lean keyword):
`lhs.append(rhs)` relinks `other`'s segment list after `self`'s. -/
def Morphism.then' {A B C : Type} (m : Morphism A B) (other : Morphism B C) :
    Morphism A C :=
  ⟨m.mfns ++ other.mfns⟩

/-- Embeds `Morphism::run`: box the argument into an erased handle, run the nested
loop over segments and steps, and unbox the result at type `B`. -/
def Morphism.run {A B : Type} [Enc A] [Enc B] (m : Morphism A B) (x : A) : B :=
  Enc.dec (runRaw m.mfns (Enc.enc x))

/-- The typed-API invariant of §3 of the spec: every step chain stored in a
`Morphism<A, B>` performs a type-correct chain of casts, i.e. it maps handles
boxed at `A` to handles boxed at `B`.  Every morphism reachable through the
public API satisfies it (see the `Wf` preservation lemmas below). -/
def Morphism.Wf {A B : Type} [Enc A] [Enc B] (m : Morphism A B) : Prop :=
  ∀ a : A, ∃ b : B, runRaw m.mfns (Enc.enc a) = Enc.enc b

/-- The morphisms reachable through the public constructors of `morphism.rs`:
`new`, `head`, `tail`, `push_front`, `push_back` and `then`. -/
inductive Reachable : {A B : Type} → Morphism A B → Prop where
  | new (A : Type) : Reachable (Morphism.new A)
  | head {A B C : Type} [Enc A] [Enc B] {m : Morphism B C} {f : A → B}
      {m2 : Morphism A C} : Reachable m → m.head f = some m2 → Reachable m2
  | tail {A B C : Type} [Enc B] [Enc C] {m : Morphism A B} {f : B → C}
      {m2 : Morphism A C} : Reachable m → m.tail f = some m2 → Reachable m2
  | push_front {B C : Type} [Enc B] {m : Morphism B C} {f : B → B}
      {m2 : Morphism B C} : Reachable m → m.push_front f = some m2 → Reachable m2
  | push_back {A B : Type} [Enc B] {m : Morphism A B} {f : B → B}
      {m2 : Morphism A B} : Reachable m → m.push_back f = some m2 → Reachable m2
  | then' {A B C : Type} {m : Morphism A B} {m2 : Morphism B C} :
      Reachable m → Reachable m2 → Reachable (m.then' m2)

/-- Builds `n` successive `tail` (append) calls of the same closure `f`, as in the
loops of `tests::readme` and `tests::fn_like`. -/
def tailRepeat {A B : Type} [Enc B] (m : Morphism A B) (f : B → B) :
    Nat → Option (Morphism A B)
  | 0 => some m
  | n + 1 => (tailRepeat m f n).bind (fun m2 => m2.tail f)

/-- The closure `|x| x + 42u64` of the tests. -/
def add42 (x : Nat) : Nat := x + 42

/-- The closure `|x| x.map(|y| y - 42u64)` of `tests::readme`. -/
def mapSub42 (o : Option Nat) : Option Nat := o.map (fun y => y - 42)

/-- The closure `|x| (x.map(|y| y + 1000u64), "welp".to_string())`. -/
def stepWelp (x : Option Nat) : Option Nat × String :=
  (x.map (fun y => y + 1000), "welp")

/-- The closure `|(l, r)| (l.map(|y| y + 42u64), r)`. -/
def stepAdd42 (p : Option Nat × String) : Option Nat × String :=
  (p.1.map (fun y => y + 42), p.2)

/-- The closure `|(l, r)| (l, l.is_some(), r)`. -/
def stepTriple (p : Option Nat × String) : Option Nat × Bool × String :=
  (p.1, p.1.isSome, p.2)

/-- The closure `|x| Some(x)`. -/
def oSome (x : Nat) : Option Nat := some x

/-- The chain `f` of `tests::readme`: 100000 appends of `|x| x + 42`. -/
def chainF : Option (Morphism Nat Nat) :=
  tailRepeat (Morphism.new Nat) add42 100000

/-- The chain of `tests::fn_like`: 10000 appends of `|x| x + 42`. -/
def chain10k : Option (Morphism Nat Nat) :=
  tailRepeat (Morphism.new Nat) add42 10000

/-- Embeds the test closure `|x| x + 42u64` at actual `u64` semantics: the
addition wraps modulo `2 ^ 64` (release-mode Rust semantics; debug mode panics
instead of wrapping, and wherever no overflow occurs the two agree and equal
the unbounded sum). -/
def add42u64 (x : Nat) : Nat := (x + 42) % 2 ^ 64

/-- The chain of the stack-safety scenario at `u64` semantics: 100000 appends
of the wrapping `|x| x + 42u64`. -/
def chainFu64 : Option (Morphism Nat Nat) :=
  tailRepeat (Morphism.new Nat) add42u64 100000

/-- The 99999 `|x| x.map(|y| y - 42)` appends of the chain `g` of `tests::readme`. -/
def chainGmaps : Option (Morphism (Option Nat) (Option Nat)) :=
  tailRepeat (Morphism.new (Option Nat)) mapSub42 99999

/-- The full chain `g` of `tests::readme`: the 99999 maps, the three
triple-producing appends, and the final prepend `.head(|x| Some(x))`. -/
def chainG : Option (Morphism Nat (Option Nat × Bool × String)) :=
  (((chainGmaps.bind (fun g => g.tail stepWelp)).bind
      (fun g => g.tail stepAdd42)).bind
      (fun g => g.tail stepTriple)).bind
      (fun g => g.head oSome)

/-- The chain `f` as the spec's §8 end-to-end scenario literally states it:
the 100000 appends of `|x| x + 42` followed by one more append converting to
an optional value. -/
def chainFLit : Option (Morphism Nat (Option Nat)) :=
  chainF.bind (fun m => m.tail oSome)

/-- Functor-like containers (`trait Functor` of `lib.rs`, using Lean's real
higher-kinded types in place of the `Param`/`Output` associated-type encoding). -/
class CFunctor (F : Type → Type) where
  fmap : {X Y : Type} → (X → Y) → F X → F Y

/-- Rust's `Box<A>` (the `impl Functor for Box` sample adapter of `lib.rs`). -/
structure Box (A : Type) : Type where
  unbox : A

instance : CFunctor Option where
  fmap f o := o.map f

instance : CFunctor Box where
  fmap f b := ⟨f b.unbox⟩

instance {E : Type} : CFunctor (Except E) where
  fmap f r := r.map f

/-- Embeds `Coyoneda<'a, T, B>`: a container value `point` plus the accumulated
`Morphism` from the container's element type to `B`. -/
structure Coyoneda (F : Type → Type) (A B : Type) : Type where
  point : F A
  morph : Morphism A B

/-- Embeds `impl From<T> for Coyoneda` (named `fromF` because `from` is a Lean
keyword): the lifted container with the identity morphism. -/
def Coyoneda.fromF {F : Type → Type} {A : Type} (x : F A) : Coyoneda F A A :=
  ⟨x, Morphism.new A⟩

/-- Embeds `impl Functor for Coyoneda`: `fmap` keeps the point and appends `f` to the
morphism via `tail`. -/
def Coyoneda.fmap {F : Type → Type} {A B C : Type} [Enc B] [Enc C]
    (c : Coyoneda F A B) (f : B → C) : Option (Coyoneda F A C) :=
  (c.morph.tail f).map (fun m => ⟨c.point, m⟩)

/-- Embeds `Coyoneda::unwrap`: materialize by handing the container's native
element-mapping the closure `move |a| m.run(a)`. -/
def Coyoneda.unwrap {F : Type → Type} {A B : Type} [CFunctor F] [Enc A] [Enc B]
    (c : Coyoneda F A B) : F B :=
  CFunctor.fmap (fun a => c.morph.run a) c.point

/-- A sequence of composable typed closures `f1, ..., fn`, carrying the `Enc`
encoding of every type along the chain (each Rust `fmap` call is typed, so the
encodings exist at every intermediate type). -/
inductive FnChain : (B : Type) → Enc B → (C : Type) → Enc C → Type 1 where
  | nil : {A : Type} → {ea : Enc A} → FnChain A ea A ea
  | cons : {A : Type} → {ea : Enc A} → {B : Type} → {eb : Enc B} →
      {C : Type} → {ec : Enc C} →
      (A → B) → FnChain B eb C ec → FnChain A ea C ec

/-- The mathematical composition `fn ∘ ... ∘ f1` of a closure sequence. -/
def FnChain.apply : {B : Type} → {eb : Enc B} → {C : Type} → {ec : Enc C} →
    FnChain B eb C ec → B → C
  | _, _, _, _, FnChain.nil, x => x
  | _, _, _, _, FnChain.cons f ch, x => FnChain.apply ch (f x)

/-- Successive `tail` calls of a closure sequence on a morphism. -/
def Morphism.tailChain {A : Type} : {B : Type} → {eb : Enc B} → {C : Type} →
    {ec : Enc C} → Morphism A B → FnChain B eb C ec → Option (Morphism A C)
  | _, _, _, _, m, FnChain.nil => some m
  | _, eb, _, ec, m, @FnChain.cons _ _ B2 eb2 _ _ f ch =>
      (@Morphism.tail A _ B2 eb eb2 m f).bind
        (fun m2 => @Morphism.tailChain A B2 eb2 _ ec m2 ch)

/-- Successive `fmap` calls of a closure sequence on a `Coyoneda`. -/
def Coyoneda.fmapChain {F : Type → Type} {A : Type} : {B : Type} → {eb : Enc B} →
    {C : Type} → {ec : Enc C} →
    Coyoneda F A B → FnChain B eb C ec → Option (Coyoneda F A C)
  | _, _, _, _, c, FnChain.nil => some c
  | _, eb, _, ec, c, @FnChain.cons _ _ B2 eb2 _ _ f ch =>
      (@Coyoneda.fmap F A _ B2 eb eb2 c f).bind
        (fun c2 => @Coyoneda.fmapChain F A B2 eb2 _ ec c2 ch)

/-! ### Basic lemmas about the erased execution loop -/

/-- Applying a wrapped step to a handle boxed at its input type applies the
underlying typed closure. -/
theorem wrap_enc {A B : Type} [Enc A] [Enc B] (f : A → B) (x : A) :
    wrap f (Enc.enc x) = Enc.enc (f x) := by
  simp [wrap]

theorem runSeg_nil (v : Val) : runSeg [] v = v := rfl

theorem runSeg_cons (g : Step) (s : List Step) (v : Val) :
    runSeg (g :: s) v = runSeg s (g v) := rfl

theorem runSeg_append (s1 s2 : List Step) (v : Val) :
    runSeg (s1 ++ s2) v = runSeg s2 (runSeg s1 v) := by
  simp [runSeg, List.foldl_append]

theorem runRaw_nil (v : Val) : runRaw [] v = v := rfl

theorem runRaw_cons (s : List Step) (l : List (List Step)) (v : Val) :
    runRaw (s :: l) v = runRaw l (runSeg s v) := rfl

theorem runRaw_append (l1 l2 : List (List Step)) (v : Val) :
    runRaw (l1 ++ l2) v = runRaw l2 (runRaw l1 v) := by
  simp [runRaw, List.foldl_append]

/-! ### Lemmas about the two push operations -/

theorem pushFrontRaw_some {g : Step} {l l2 : List (List Step)}
    (h : pushFrontRaw g l = some l2) :
    ∃ seg rest, l = seg :: rest ∧ l2 = (g :: seg) :: rest := by
  cases l with
  | nil => simp [pushFrontRaw] at h
  | cons seg rest =>
      refine ⟨seg, rest, rfl, ?_⟩
      simpa [pushFrontRaw] using h.symm

theorem pushFrontRaw_ne_nil {g : Step} {l l2 : List (List Step)}
    (h : pushFrontRaw g l = some l2) : l2 ≠ [] := by
  obtain ⟨seg, rest, _, rfl⟩ := pushFrontRaw_some h
  simp

theorem pushFrontRaw_isSome (g : Step) {l : List (List Step)} (h : l ≠ []) :
    (pushFrontRaw g l).isSome := by
  cases l with
  | nil => exact absurd rfl h
  | cons seg rest => simp [pushFrontRaw]

/-- Semantics of a front push: the pushed step runs first. -/
theorem pushFrontRaw_run {g : Step} {l l2 : List (List Step)}
    (h : pushFrontRaw g l = some l2) (v : Val) :
    runRaw l2 v = runRaw l (g v) := by
  obtain ⟨seg, rest, rfl, rfl⟩ := pushFrontRaw_some h
  simp [runRaw_cons, runSeg_cons]

theorem pushBackRaw_isSome (g : Step) : ∀ {l : List (List Step)}, l ≠ [] →
    (pushBackRaw g l).isSome
  | [], h => absurd rfl h
  | [seg], _ => by simp [pushBackRaw]
  | seg :: seg2 :: rest, _ => by
      have ih := pushBackRaw_isSome g (l := seg2 :: rest) (by simp)
      simp only [pushBackRaw, Option.isSome_map']
      exact ih

theorem pushBackRaw_ne_nil {g : Step} : ∀ {l l2 : List (List Step)},
    pushBackRaw g l = some l2 → l2 ≠ []
  | [], _, h => by simp [pushBackRaw] at h
  | [seg], l2, h => by
      simp only [pushBackRaw, Option.some_inj] at h
      subst h; simp
  | seg :: seg2 :: rest, l2, h => by
      simp only [pushBackRaw, Option.map_eq_some'] at h
      obtain ⟨l3, _, rfl⟩ := h
      simp

/-- Semantics of a back push: the pushed step runs last. -/
theorem pushBackRaw_run {g : Step} : ∀ {l l2 : List (List Step)},
    pushBackRaw g l = some l2 → ∀ v : Val, runRaw l2 v = g (runRaw l v)
  | [], _, h => by simp [pushBackRaw] at h
  | [seg], l2, h => by
      simp only [pushBackRaw, Option.some_inj] at h
      subst h
      intro v
      simp [runRaw_cons, runRaw_nil, runSeg_append, runSeg_cons, runSeg_nil]
  | seg :: seg2 :: rest, l2, h => by
      simp only [pushBackRaw, Option.map_eq_some'] at h
      obtain ⟨l3, h3, rfl⟩ := h
      intro v
      rw [runRaw_cons, runRaw_cons, pushBackRaw_run h3]

/-! ### Semantics of the public morphism operations -/

theorem run_new {A : Type} [Enc A] (x : A) : (Morphism.new A).run x = x := by
  simp [Morphism.run, Morphism.new, runRaw_cons, runSeg_nil, runRaw_nil]

theorem Wf_new (A : Type) [Enc A] : (Morphism.new A).Wf :=
  fun a => ⟨a, rfl⟩

theorem head_ne_nil {A B C : Type} [Enc A] [Enc B] {m : Morphism B C}
    {f : A → B} {m2 : Morphism A C} (h : m.head f = some m2) : m2.mfns ≠ [] := by
  simp only [Morphism.head, Option.map_eq_some'] at h
  obtain ⟨l2, hl2, rfl⟩ := h
  exact pushFrontRaw_ne_nil hl2

theorem tail_ne_nil {A B C : Type} [Enc B] [Enc C] {m : Morphism A B}
    {f : B → C} {m2 : Morphism A C} (h : m.tail f = some m2) : m2.mfns ≠ [] := by
  simp only [Morphism.tail, Option.map_eq_some'] at h
  obtain ⟨l2, hl2, rfl⟩ := h
  exact pushBackRaw_ne_nil hl2

theorem head_isSome {A B C : Type} [Enc A] [Enc B] (m : Morphism B C)
    (f : A → B) (h : m.mfns ≠ []) : (m.head f).isSome := by
  simp only [Morphism.head, Option.isSome_map']
  exact pushFrontRaw_isSome _ h

theorem tail_isSome {A B C : Type} [Enc B] [Enc C] (m : Morphism A B)
    (f : B → C) (h : m.mfns ≠ []) : (m.tail f).isSome := by
  simp only [Morphism.tail, Option.isSome_map']
  exact pushBackRaw_isSome _ h

/-- Semantics of `head`: pre-composition. -/
theorem head_run {A B C : Type} [Enc A] [Enc B] [Enc C] {m : Morphism B C}
    {f : A → B} {m2 : Morphism A C} (h : m.head f = some m2) (x : A) :
    m2.run x = m.run (f x) := by
  simp only [Morphism.head, Option.map_eq_some'] at h
  obtain ⟨l2, hl2, rfl⟩ := h
  simp [Morphism.run, pushFrontRaw_run hl2, wrap_enc]

/-- Semantics of `tail` on a well-formed morphism: post-composition. -/
theorem tail_run {A B C : Type} [Enc A] [Enc B] [Enc C] {m : Morphism A B}
    {f : B → C} {m2 : Morphism A C} (h : m.tail f = some m2) (hwf : m.Wf)
    (x : A) : m2.run x = f (m.run x) := by
  simp only [Morphism.tail, Option.map_eq_some'] at h
  obtain ⟨l2, hl2, rfl⟩ := h
  obtain ⟨b, hb⟩ := hwf x
  simp [Morphism.run, pushBackRaw_run hl2, hb, wrap_enc]

theorem Wf_head {A B C : Type} [Enc A] [Enc B] [Enc C] {m : Morphism B C}
    {f : A → B} {m2 : Morphism A C} (h : m.head f = some m2) (hwf : m.Wf) :
    m2.Wf := by
  intro a
  simp only [Morphism.head, Option.map_eq_some'] at h
  obtain ⟨l2, hl2, rfl⟩ := h
  obtain ⟨c, hc⟩ := hwf (f a)
  exact ⟨c, by simpa [pushFrontRaw_run hl2, wrap_enc] using hc⟩

theorem Wf_tail {A B C : Type} [Enc A] [Enc B] [Enc C] {m : Morphism A B}
    {f : B → C} {m2 : Morphism A C} (h : m.tail f = some m2) (hwf : m.Wf) :
    m2.Wf := by
  intro a
  simp only [Morphism.tail, Option.map_eq_some'] at h
  obtain ⟨l2, hl2, rfl⟩ := h
  obtain ⟨b, hb⟩ := hwf a
  exact ⟨f b, by simp [pushBackRaw_run hl2, hb, wrap_enc]⟩

theorem Wf_then {A B C : Type} [Enc A] [Enc B] [Enc C] {m : Morphism A B}
    {m2 : Morphism B C} (h1 : m.Wf) (h2 : m2.Wf) : (m.then' m2).Wf := by
  intro a
  obtain ⟨b, hb⟩ := h1 a
  obtain ⟨c, hc⟩ := h2 b
  exact ⟨c, by simp [Morphism.then', runRaw_append, hb, hc]⟩

/-! ### Iterated appends of a fixed closure -/

theorem runSeg_replicate {A : Type} [Enc A] (f : A → A) (n : Nat) (x : A) :
    runSeg (List.replicate n (wrap f)) (Enc.enc x) = Enc.enc (f^[n] x) := by
  induction n generalizing x with
  | zero => rfl
  | succ n ih =>
      rw [List.replicate_succ, runSeg_cons, wrap_enc, ih,
        Function.iterate_succ_apply]

theorem tailRepeat_single {A B : Type} [Enc A] [Enc B] (s : List Step)
    (f : B → B) (n : Nat) :
    tailRepeat (⟨[s]⟩ : Morphism A B) f n
      = some ⟨[s ++ List.replicate n (wrap f)]⟩ := by
  induction n with
  | zero => simp [tailRepeat]
  | succ n ih =>
      rw [tailRepeat, ih]
      show Morphism.tail ⟨[s ++ List.replicate n (wrap f)]⟩ f = _
      rw [Morphism.tail]
      show (some [(s ++ List.replicate n (wrap f)) ++ [wrap f]]).map _ = _
      simp [List.append_assoc, List.replicate_succ']

theorem add42_iterate (n : Nat) (x : Nat) : add42^[n] x = x + 42 * n := by
  induction n generalizing x with
  | zero => simp
  | succ n ih =>
      rw [Function.iterate_succ_apply, ih, add42]
      omega

theorem mapSub42_iterate (n : Nat) (o : Option Nat) :
    mapSub42^[n] o = o.map (fun y => y - 42 * n) := by
  induction n generalizing o with
  | zero =>
      simp only [Function.iterate_zero, id_eq, Nat.mul_zero, Nat.sub_zero]
      cases o <;> rfl
  | succ n ih =>
      rw [Function.iterate_succ_apply, ih, mapSub42, Option.map_map]
      cases o with
      | none => rfl
      | some y =>
          show some (y - 42 - 42 * n) = some (y - 42 * (n + 1))
          congr 1
          omega

theorem chainF_eq :
    chainF = some ⟨[List.replicate 100000 (wrap add42)]⟩ := by
  rw [chainF]
  show tailRepeat (⟨[[]]⟩ : Morphism Nat Nat) add42 100000 = _
  rw [tailRepeat_single, List.nil_append]

theorem chain10k_eq :
    chain10k = some ⟨[List.replicate 10000 (wrap add42)]⟩ := by
  rw [chain10k]
  show tailRepeat (⟨[[]]⟩ : Morphism Nat Nat) add42 10000 = _
  rw [tailRepeat_single, List.nil_append]

theorem replicate_run {A : Type} [Enc A] (f : A → A) (n : Nat) (x : A) :
    (⟨[List.replicate n (wrap f)]⟩ : Morphism A A).run x = f^[n] x := by
  rw [Morphism.run]
  show Enc.dec (runRaw [List.replicate n (wrap f)] (Enc.enc x)) = _
  rw [runRaw_cons, runRaw_nil, runSeg_replicate, Enc.dec_enc]

/-! ### Claim theorems -/

/-- C1: for every chain `f : A -> B` (well-formed, as every chain built through
the typed API is), every chain `g : B -> C` and every input `x`, running the
concatenation `then` of `f` and `g` on `x` equals running `f` on `x` and then
running `g` on the result. -/
theorem C1_then_run {A B C : Type} [Enc A] [Enc B] [Enc C] (f : Morphism A B)
    (g : Morphism B C) (hf : f.Wf) (x : A) :
    (f.then' g).run x = g.run (f.run x) := by
  obtain ⟨b, hb⟩ := hf x
  rw [Morphism.run, Morphism.then']
  show Enc.dec (runRaw (f.mfns ++ g.mfns) (Enc.enc x)) = _
  rw [runRaw_append, hb, Morphism.run, Morphism.run, hb, Enc.dec_enc]

theorem C1_then_run_witness :
    ((Morphism.new Nat).then' (Morphism.new Nat)).run 3
      = (Morphism.new Nat).run ((Morphism.new Nat).run 3) :=
  C1_then_run (Morphism.new Nat) (Morphism.new Nat) (Wf_new Nat) 3

/-- C2: extension order.  Two `tail` (append) calls on the identity chain run
the later-added closure after the earlier one, and two `head` (prepend) calls
run the later-added closure before the earlier one. -/
theorem C2_extension_order {A B C D : Type} [Enc A] [Enc B] [Enc C] [Enc D]
    (g1 : A → B) (g2 : B → C) (h1 : C → D) (h2 : B → C) (x : A) (y : B) :
    (((Morphism.new A).tail g1).bind (fun m => m.tail g2)).map
        (fun m => m.run x) = some (g2 (g1 x))
    ∧ (((Morphism.new D).head h1).bind (fun m => m.head h2)).map
        (fun m => m.run y) = some (h1 (h2 y)) := by
  constructor
  · show some (Enc.dec (wrap g2 (wrap g1 (Enc.enc x)))) = some (g2 (g1 x))
    rw [wrap_enc, wrap_enc, Enc.dec_enc]
  · show some (Enc.dec (wrap h1 (wrap h2 (Enc.enc y)))) = some (h1 (h2 y))
    rw [wrap_enc, wrap_enc, Enc.dec_enc]

/-- C3: identity law.  Running the identity chain `Morphism::new()` (one empty
segment, zero steps) on any input returns the input unchanged. -/
theorem C3_identity_law {A : Type} [Enc A] (x : A) :
    (Morphism.new A).run x = x :=
  run_new x

/-- C7: associativity of concatenation.  `then` is strictly associative on the
segment lists, so the two groupings have identical `run` behavior. -/
theorem C7_then_assoc {A B C D : Type} [Enc A] [Enc D] (f : Morphism A B)
    (g : Morphism B C) (h : Morphism C D) (x : A) :
    ((f.then' g).then' h).run x = (f.then' (g.then' h)).run x := by
  rw [Morphism.run, Morphism.run]
  show Enc.dec (runRaw ((f.mfns ++ g.mfns) ++ h.mfns) (Enc.enc x))
      = Enc.dec (runRaw (f.mfns ++ (g.mfns ++ h.mfns)) (Enc.enc x))
  rw [List.append_assoc]

/-- C8: structural concatenation.  The segment list of `then(self, other)` is
exactly `self`'s segment list followed by `other`'s: no segments are merged
(the count adds up) and each segment is kept untouched. -/
theorem C8_then_structural {A B C : Type} (f : Morphism A B)
    (g : Morphism B C) :
    (f.then' g).mfns = f.mfns ++ g.mfns
    ∧ (f.then' g).mfns.length = f.mfns.length + g.mfns.length := by
  exact ⟨rfl, by simp [Morphism.then']⟩

/-- C10: every morphism reachable through the public API has a non-empty
segment list, so the `front_mut().unwrap()` of `unsafe_push_front` and the
`back_mut().unwrap()` of `unsafe_push_back` never panic (the pushes always
return a value in the `Option` model). -/
theorem C10_segments_nonempty {A B : Type} (m : Morphism A B)
    (h : Reachable m) :
    m.mfns ≠ [] ∧ ∀ g : Step,
      (pushFrontRaw g m.mfns).isSome ∧ (pushBackRaw g m.mfns).isSome := by
  have hne : m.mfns ≠ [] := by
    induction h with
    | new A => simp [Morphism.new]
    | head _ heq _ => exact head_ne_nil heq
    | tail _ heq _ => exact tail_ne_nil heq
    | push_front _ heq _ => exact head_ne_nil heq
    | push_back _ heq _ => exact tail_ne_nil heq
    | then' _ _ ih1 ih2 =>
        show _ ++ _ ≠ ([] : List (List Step))
        simp only [ne_eq, List.append_eq_nil]
        intro hc
        exact ih1 hc.1
  exact ⟨hne, fun g => ⟨pushFrontRaw_isSome g hne, pushBackRaw_isSome g hne⟩⟩

theorem C10_segments_nonempty_witness :
    (Morphism.new Nat).mfns ≠ [] ∧ ∀ g : Step,
      (pushFrontRaw g (Morphism.new Nat).mfns).isSome
        ∧ (pushBackRaw g (Morphism.new Nat).mfns).isSome :=
  C10_segments_nonempty (Morphism.new Nat) (Reachable.new Nat)

theorem add42u64_iterate (n : Nat) (x : Nat) (hx : x < 2 ^ 64) :
    add42u64^[n] x = (x + 42 * n) % 2 ^ 64 := by
  induction n generalizing x with
  | zero =>
      simp only [Function.iterate_zero, id_eq, Nat.mul_zero, Nat.add_zero]
      exact (Nat.mod_eq_of_lt hx).symm
  | succ n ih =>
      rw [Function.iterate_succ_apply, ih (add42u64 x) (Nat.mod_lt _ (by norm_num)),
        add42u64, Nat.mod_add_mod]
      congr 1
      omega

theorem chainFu64_eq :
    chainFu64 = some ⟨[List.replicate 100000 (wrap add42u64)]⟩ := by
  rw [chainFu64]
  show tailRepeat (⟨[[]]⟩ : Morphism Nat Nat) add42u64 100000 = _
  rw [tailRepeat_single, List.nil_append]

/-- C4: building a chain by 100000 successive `tail` (append) calls of the
wrapping `u64` closure `|x| x + 42u64` starting from the identity chain and
running it once returns the mathematically correct value `x + 100000 * 42`
whenever that value is representable in `u64` (outside that range the source's
`u64` addition wraps in release mode or panics in debug mode, so the code
cannot return the unbounded sum there); `run` is the total iterative fold
`runRaw`, with no recursion in the chain length. -/
theorem C4_stack_safety (x : Nat) (hx : x + 100000 * 42 < 2 ^ 64) :
    chainFu64.map (fun m => m.run x) = some (x + 100000 * 42) := by
  rw [chainFu64_eq]
  simp only [Option.map_some']
  rw [replicate_run, add42u64_iterate 100000 x (by omega)]
  rw [Nat.mod_eq_of_lt (by omega)]

theorem C4_stack_safety_witness :
    1000 + 100000 * 42 < 2 ^ 64
    ∧ chainFu64.map (fun m => m.run 1000) = some (1000 + 100000 * 42) :=
  ⟨by norm_num, C4_stack_safety 1000 (by norm_num)⟩

/-- C6: reusability.  `run` is a pure function of the chain value, so the
10000-append chain of `tests::fn_like` can be run repeatedly: each input `i`
in `0..100` yields `42 * 10000 + i` and the 100 results sum to `42004950`. -/
theorem C6_reusability :
    (∀ i : Nat, chain10k.map (fun m => m.run i) = some (42 * 10000 + i))
    ∧ chain10k.map (fun m => ((List.range 100).map (fun i => m.run i)).sum)
      = some 42004950 := by
  have hrun : ∀ i : Nat,
      (⟨[List.replicate 10000 (wrap add42)]⟩ : Morphism Nat Nat).run i
        = i + 42 * 10000 := by
    intro i
    rw [replicate_run, add42_iterate]
  constructor
  · intro i
    rw [chain10k_eq]
    simp only [Option.map_some']
    rw [hrun]
    congr 1
    omega
  · rw [chain10k_eq]
    simp only [Option.map_some']
    rw [List.map_congr_left (fun i _ => hrun i)]
    rfl

theorem chainGmaps_eq :
    chainGmaps = some ⟨[List.replicate 99999 (wrap mapSub42)]⟩ := by
  rw [chainGmaps]
  show tailRepeat (⟨[[]]⟩ : Morphism (Option Nat) (Option Nat)) mapSub42 99999 = _
  rw [tailRepeat_single, List.nil_append]


set_option maxRecDepth 2000 in
theorem chainFLit_eq :
    chainFLit = some ⟨[List.replicate 100000 (wrap add42) ++ [wrap oSome]]⟩ := by
  rw [chainFLit, chainF_eq]
  rfl

set_option maxRecDepth 2000 in
theorem chainG_eq :
    chainG = some ⟨[wrap oSome :: (List.replicate 99999 (wrap mapSub42)
      ++ [wrap stepWelp, wrap stepAdd42, wrap stepTriple])]⟩ := by
  rw [chainG, chainGmaps_eq]
  show some (⟨[wrap oSome :: (((List.replicate 99999 (wrap mapSub42)
      ++ [wrap stepWelp]) ++ [wrap stepAdd42]) ++ [wrap stepTriple])]⟩
      : Morphism Nat (Option Nat × Bool × String)) = _
  simp only [List.append_assoc]
  rfl

set_option maxRecDepth 2000 in
theorem readme_run (x : Nat) :
    ((⟨[List.replicate 100000 (wrap add42)]⟩ : Morphism Nat Nat).then'
      (⟨[wrap oSome :: (List.replicate 99999 (wrap mapSub42)
        ++ [wrap stepWelp, wrap stepAdd42, wrap stepTriple])]⟩
        : Morphism Nat (Option Nat × Bool × String))).run x
    = (some (x + 42 * 100000 - 42 * 99999 + 1000 + 42), true, "welp") := by
  simp only [Morphism.run, Morphism.then']
  rw [runRaw_append, runRaw_cons, runRaw_nil, runRaw_cons, runRaw_nil,
    runSeg_replicate, runSeg_cons, wrap_enc, runSeg_append,
    runSeg_replicate, runSeg_cons, wrap_enc, runSeg_cons, wrap_enc,
    runSeg_cons, wrap_enc, runSeg_nil, Enc.dec_enc,
    add42_iterate, mapSub42_iterate]
  simp [oSome, stepWelp, stepAdd42, stepTriple]

/-- C5 (amended): the end-to-end scenario exactly as `tests::readme` builds it.
`f` is the 100000 appends of `|x| x + 42`; `g` is the 99999 appends of
`|x| x.map(|y| y - 42)`, the three triple-producing appends, and one prepend
wrapping the input in an optional value; then `run(concat(f,g), 0)` is
`(Some 1084, true, "welp")` and `run(concat(f,g), 1000)` is
`(Some 2084, true, "welp")`. -/
theorem C5_scenario_amended :
    chainF.bind (fun f => chainG.map (fun g =>
      ((f.then' g).run 0, (f.then' g).run 1000)))
    = some ((some 1084, true, "welp"), (some 2084, true, "welp")) := by
  rw [chainF_eq, chainG_eq]
  simp only [Option.some_bind, Option.map_some']
  rw [readme_run, readme_run]

/-- C5 (counterexample): the claim as literally stated gives `f` an extra
append converting to an optional value *and* keeps `g`'s prepend wrapping the
input in an optional value.  With both wraps the composite is ill-typed at the
concatenation boundary (`f` ends at an optional value while `g` begins at a
plain integer), so Rust rejects it; under the erased execution semantics the
spliced chain evaluates at input `0` to `(some 1042, true, "welp")`, not the
claimed `(some 1084, true, "welp")`. -/
theorem C5_counterexample_scenario :
    chainFLit.bind (fun f => chainG.map (fun g =>
      (Enc.dec (runRaw (f.mfns ++ g.mfns) (Enc.enc (0 : Nat)))
        : Option Nat × Bool × String)))
    ≠ some (some 1084, true, "welp") := by
  rw [chainFLit_eq, chainG_eq]
  simp only [Option.some_bind, Option.map_some']
  have hf : runRaw [List.replicate 100000 (wrap add42) ++ [wrap oSome]]
      (Enc.enc (0 : Nat)) = Enc.enc (oSome (add42^[100000] 0)) := by
    rw [runRaw_cons, runRaw_nil, runSeg_append, runSeg_replicate,
      runSeg_cons, wrap_enc, runSeg_nil]
  rw [runRaw_append, hf, runRaw_cons, runRaw_nil, runSeg_cons]
  rw [show wrap oSome (Enc.enc (oSome (add42^[100000] 0)))
      = Enc.enc (some (0 : Nat)) from rfl]
  rw [runSeg_append, runSeg_replicate, mapSub42_iterate, runSeg_cons,
    wrap_enc, runSeg_cons, wrap_enc, runSeg_cons, wrap_enc, runSeg_nil,
    Enc.dec_enc]
  decide

/-! ### The Coyoneda wrapper -/

theorem tailChain_spec {A : Type} [encA : Enc A] :
    ∀ {B : Type} {eb : Enc B} {C : Type} {ec : Enc C} (ch : FnChain B eb C ec)
      (m : Morphism A B), m.mfns ≠ [] → @Morphism.Wf A B encA eb m →
      ∃ m2 : Morphism A C,
        @Morphism.tailChain A B eb C ec m ch = some m2
        ∧ m2.mfns ≠ []
        ∧ @Morphism.Wf A C encA ec m2
        ∧ ∀ x : A, @Morphism.run A C encA ec m2 x
            = ch.apply (@Morphism.run A B encA eb m x) := by
  intro B eb C ec ch
  induction ch with
  | nil =>
      intro m hne hwf
      exact ⟨m, rfl, hne, hwf, fun x => rfl⟩
  | @cons B eb B2 eb2 C ec f ch2 ih =>
      intro m hne hwf
      have hsome : (@Morphism.tail A B B2 eb eb2 m f).isSome :=
        @tail_isSome A B B2 eb eb2 m f hne
      obtain ⟨m1, hm1⟩ := Option.isSome_iff_exists.mp hsome
      have hne1 : m1.mfns ≠ [] := @tail_ne_nil A B B2 eb eb2 m f m1 hm1
      have hwf1 : @Morphism.Wf A B2 encA eb2 m1 :=
        @Wf_tail A B B2 encA eb eb2 m f m1 hm1 hwf
      have hrun1 : ∀ x : A, @Morphism.run A B2 encA eb2 m1 x
          = f (@Morphism.run A B encA eb m x) :=
        fun x => @tail_run A B B2 encA eb eb2 m f m1 hm1 hwf x
      obtain ⟨m2, h2, hne2, hwf2, hrun2⟩ := ih m1 hne1 hwf1
      refine ⟨m2, ?_, hne2, hwf2, ?_⟩
      · simp only [Morphism.tailChain, hm1, Option.some_bind]
        exact h2
      · intro x
        rw [hrun2 x, hrun1 x]
        rfl

theorem fmapChain_eq {F : Type → Type} {A : Type} :
    ∀ {B : Type} {eb : Enc B} {C : Type} {ec : Enc C} (ch : FnChain B eb C ec)
      (c : Coyoneda F A B),
      @Coyoneda.fmapChain F A B eb C ec c ch
        = (@Morphism.tailChain A B eb C ec c.morph ch).map
            (fun m => ⟨c.point, m⟩) := by
  intro B eb C ec ch
  induction ch with
  | nil => intro c; rfl
  | @cons B eb B2 eb2 C ec f ch2 ih =>
      intro c
      simp only [Coyoneda.fmapChain, Morphism.tailChain, Coyoneda.fmap]
      cases hm : @Morphism.tail A B B2 eb eb2 c.morph f with
      | none => simp
      | some m1 => simp [ih]

/-- C9: Coyoneda materialization is a deferred native map.  Lifting a
container with `From::from`, applying any sequence of `fmap` closures and
calling `unwrap` returns the container's native element-mapping applied once
with the composed closure (the accumulated morphism is run on each element);
with an empty sequence this is a round trip returning the original `Option`,
`Box` or `Result` value. -/
theorem C9_coyoneda_deferred (F : Type → Type) [CFunctor F] (A B : Type)
    [ea : Enc A] [eb : Enc B] (t : F A) (ch : FnChain A ea B eb) :
    (@Coyoneda.fmapChain F A A ea B eb (Coyoneda.fromF t) ch).map
        (fun c => c.unwrap)
      = some (CFunctor.fmap (fun x => ch.apply x) t)
    ∧ (∀ (X : Type) (u : Option X), CFunctor.fmap (fun x : X => x) u = u)
    ∧ (∀ (X : Type) (u : Box X), CFunctor.fmap (fun x : X => x) u = u)
    ∧ (∀ (X E : Type) (u : Except E X), CFunctor.fmap (fun x : X => x) u = u) := by
  refine ⟨?_, ?_, ?_, ?_⟩
  · obtain ⟨m2, h2, hne2, hwf2, hrun2⟩ :=
      tailChain_spec ch (Morphism.new A) (by simp [Morphism.new]) (Wf_new A)
    rw [fmapChain_eq]
    simp only [Coyoneda.fromF]
    rw [h2]
    simp only [Option.map_some']
    show some (Coyoneda.unwrap ⟨t, m2⟩) = _
    rw [Coyoneda.unwrap]
    have hfun : (fun a => m2.run a) = (fun x : A => ch.apply x) := by
      funext a
      rw [hrun2 a, run_new]
    rw [hfun]
  · intro X u
    cases u <;> rfl
  · intro X u
    rfl
  · intro X E u
    cases u <;> rfl
